import Mathlib

/-!
Verification of the 16-bit PGM decoder and gradient mapper of image-view
(src/image_view.py).  The decoder is the function load_pgm: it matches the
regular expression MAGIC_REGEX + 3 * NUMBER_REGEX against the file bytes with
Python re.search semantics (leftmost start, greedy with backtracking), then
decodes a P2 (ASCII) or P5 (binary 16-bit) sample body and maps samples to
RGB bytes with grayscale_gradient or rainbow_gradient.

Bytes are modelled as Fin 256 (Python bytes objects).  The regex
  MAGIC_REGEX  = rb"\s*(P[25])\s*(?:#.*[\r\n])*"
  NUMBER_REGEX = rb"\s*(\d+)\s*(?:#.*[\r\n])*"
is embedded as a hand-rolled backtracking matcher specialised to this fixed
pattern, reproducing Python semantics:
  - re.search tries every start position from the left and returns the first
    position at which the pattern matches;
  - a greedy element tries its longest possibility first and backtracks;
  - \s is the byte class 9, 10, 11, 12, 13, 32; the dot matches every byte
    except 10; a comment piece needs a closing byte from the class 13, 10.
-/

abbrev Byte := Fin 256

/-- Python regex byte class \s for bytes patterns: tab, newline, vertical tab,
form feed, carriage return, space. -/
def isSpace (b : Byte) : Bool :=
  b.val = 9 || b.val = 10 || b.val = 11 || b.val = 12 || b.val = 13 || b.val = 32

/-- Python regex byte class \d: ASCII digits 0-9. -/
def isDigit (b : Byte) : Bool :=
  48 ≤ b.val && b.val ≤ 57

/-- Greedy \s* : drop the maximal run of whitespace bytes.  A shorter run can
never help: every occurrence of \s* in the pattern is followed by P, a digit
or a comment piece, none of which matches a whitespace byte. -/
def dropWS (s : List Byte) : List Byte :=
  s.dropWhile isSpace

/-- Value of a digit string, as computed by Python int() on the digits. -/
def decVal (l : List Byte) : ℕ :=
  l.foldl (fun a b => 10 * a + (b.val - 48)) 0

/-- Candidate rests after matching one comment piece "#dotstar[\r\n]" whose
body starts at the argument (the byte 35 was already consumed).  The dot-star
is greedy and cannot cross a newline (byte 10), so the candidates, in the
order Python backtracking tries them, are: the rest after the first newline
(longest dot-star), then the rests after each carriage return (byte 13)
before that newline, nearest-to-the-newline first. -/
def ccGo (acc : List (List Byte)) : List Byte → List (List Byte)
  | [] => acc
  | b :: t =>
    if b.val = 10 then t :: acc
    else if b.val = 13 then ccGo (t :: acc) t
    else ccGo acc t

def commentCandidates (t : List Byte) : List (List Byte) :=
  ccGo [] t

/-- Candidate rests after the greedy comment group (?:#dotstar[\r\n])* in the
order Python backtracking tries them: more iterations first, within an
iteration the longest comment first, and the zero-iteration rest last.  The
fuel only bounds recursion depth; each comment consumes at least two bytes,
so fuel equal to the length of the list is always sufficient. -/
def commentRestsFuel : ℕ → List Byte → List (List Byte)
  | 0, s => [s]
  | _ + 1, [] => [[]]
  | fuel + 1, b :: t =>
    if b.val = 35 then
      ((commentCandidates t).flatMap (commentRestsFuel fuel)) ++ [b :: t]
    else [b :: t]

def commentRests (s : List Byte) : List (List Byte) :=
  commentRestsFuel s.length s

/-- Candidates for a greedy (\d+) starting at the digit run whose reverse is
the first argument, with the second argument the rest after the run: the
whole run first, then shorter prefixes, as Python backtracking tries them. -/
def goRev : List Byte → List Byte → List (ℕ × List Byte)
  | [], _ => []
  | d :: rt, rest => (decVal ((d :: rt).reverse), rest) :: goRev rt (d :: rest)

def digitSplits (s : List Byte) : List (ℕ × List Byte) :=
  goRev ((s.takeWhile isDigit).reverse) (s.dropWhile isDigit)

/-- Candidate rests after the trailing \s*(?:#dotstar[\r\n])* of a token. -/
def afterTok (r : List Byte) : List (List Byte) :=
  commentRests (dropWS r)

/-- Candidates produced by one NUMBER_REGEX = \s*(\d+)\s*(?:#dotstar[\r\n])*:
captured value together with the rest, in backtracking order. -/
def numberSplits (r : List Byte) : List (ℕ × List Byte) :=
  (digitSplits (dropWS r)).flatMap fun p =>
    (afterTok p.2).map fun r2 => (p.1, r2)

/-- First success of an Option-valued function over a candidate list: the
depth-first backtracking search order. -/
def firstSome : List α → (α → Option β) → Option β
  | [], _ => none
  | a :: l, f =>
    match f a with
    | some b => some b
    | none => firstSome l f

/-- Result of a successful header match: the captured groups of
MAGIC_REGEX + 3 * NUMBER_REGEX and the bytes after the match end
(raw_data = file_contents[result.end():] in the source). -/
structure Header where
  isP5 : Bool
  width : ℕ
  height : ℕ
  maxValue : ℕ
  rest : List Byte
deriving DecidableEq, Repr

/-- Match the whole pattern anchored at the given position (Python tries the
pattern at one start position).  The leading \s* takes the maximal whitespace
run; then P and one of the bytes 50, 53; then the magic trailing
\s*(?:#dotstar[\r\n])* and three NUMBER_REGEX groups, searched depth-first in
Python backtracking order.  The final continuation always succeeds, so the
greedy-first candidates are kept whenever the required digits exist. -/
def attempt (s : List Byte) : Option Header :=
  match dropWS s with
  | p :: c :: r =>
    if p.val = 80 ∧ (c.val = 50 ∨ c.val = 53) then
      firstSome (afterTok r) fun r1 =>
      firstSome (numberSplits r1) fun pw =>
      firstSome (numberSplits pw.2) fun ph =>
      firstSome (numberSplits ph.2) fun pm =>
      some ⟨c.val = 53, pw.1, ph.1, pm.1, pm.2⟩
    else none
  | _ => none

/-- re.search: try each start position from the left, return the first match.
Models re.search(MAGIC_REGEX + 3 * NUMBER_REGEX, file_contents). -/
def searchPGM : List Byte → Option Header
  | [] => none
  | a :: t =>
    match attempt (a :: t) with
    | some h => some h
    | none => searchPGM t

/-- Python bytes.split() with no separator: split on runs of whitespace,
discarding empty pieces.  The accumulator holds the current token reversed. -/
def swGo (cur : List Byte) : List Byte → List (List Byte)
  | [] => if cur = [] then [] else [cur.reverse]
  | b :: t =>
    if isSpace b then
      if cur = [] then swGo [] t else cur.reverse :: swGo [] t
    else swGo (b :: cur) t

def splitWS (s : List Byte) : List (List Byte) :=
  swGo [] s

/-- Python int() on a whitespace-free bytes token: an optional single sign
followed by a nonempty digit string; anything else raises ValueError. -/
def digitsVal (t : List Byte) : Option ℤ :=
  if t ≠ [] ∧ t.all isDigit then some ((decVal t : ℕ) : ℤ) else none

def pyInt : List Byte → Option ℤ
  | [] => none
  | b :: t =>
    if b.val = 43 then digitsVal t
    else if b.val = 45 then (digitsVal t).map (fun z => -z)
    else digitsVal (b :: t)

/-- Evaluate int(value) for each token of the P2 body, left to right, failing
at the first token that is not an integer (the ValueError of the list
comprehension in the source). -/
def parseTokens : List (List Byte) → Option (List ℤ)
  | [] => some []
  | t :: ts =>
    match pyInt t, parseTokens ts with
    | some v, some vs => some (v :: vs)
    | _, _ => none

/-- Read consecutive 2-byte samples in the given byte order: array.array with
type code H interprets pairs in the host order; the same reading with the
configured order describes the intended interpretation.  The first byte of a
pair is the low byte when the order is little-endian. -/
def readPairs (little : Bool) : List Byte → List ℕ
  | b0 :: b1 :: t =>
    (if little then b0.val + 256 * b1.val else 256 * b0.val + b1.val)
      :: readPairs little t
  | _ => []

/-- array.byteswap for the 2-byte type code: swap the bytes of a sample. -/
def swap16 (v : ℕ) : ℕ :=
  (v % 256) * 256 + v / 256

/-- Errors load_pgm can raise (all surface as exceptions in Python):
valueError from int() on a P2 token, oddLength from array.fromstring on a
byte string whose length is not a multiple of 2, zeroDiv from a division by
zero inside a gradient mapper, byteRange from bytearray on an integer outside
0..255, bufferSize from pygame.image.frombuffer when the buffer length does
not equal 3 * width * height (the length contract documented by pygame). -/
inductive PgmError where
  | valueError
  | oddLength
  | zeroDiv
  | byteRange
  | bufferSize
deriving DecidableEq, Repr

/-- Outcome of the sample-decoding part of load_pgm, before RGB mapping:
notPgm models load_pgm returning None. -/
inductive SamplesResult where
  | notPgm
  | err (e : PgmError)
  | ok (hd : Header) (samples : List ℤ)
deriving DecidableEq, Repr

/-- Sample decode of the body once the header matched with max_value > 255:
the P2 token parse of raw_data.split(), or the P5 read of
raw_data[: 2 * width * height] with the conditional byteswap
  if sys.byteorder != ("little" if little_endian else "big"): byteswap().
The host byte order is the explicit parameter hostLittle. -/
def bodyDecode (hd : Header) (littleEndian hostLittle : Bool) : SamplesResult :=
  if hd.isP5 then
    let raw := hd.rest.take (2 * hd.width * hd.height)
    if raw.length % 2 = 1 then .err .oddLength
    else
      let native := readPairs hostLittle raw
      let samples := if hostLittle ≠ littleEndian
                     then native.map swap16 else native
      .ok hd (samples.map Int.ofNat)
  else
    match parseTokens (splitWS hd.rest) with
    | none => .err .valueError
    | some samples => .ok hd samples

/-- Header match and sample decode of load_pgm: the regex search, the
max_value <= 255 delegation check, then the body decode. -/
def decodeSamples (contents : List Byte) (littleEndian hostLittle : Bool) :
    SamplesResult :=
  match searchPGM contents with
  | none => .notPgm
  | some hd =>
    if hd.maxValue ≤ 255 then .notPgm
    else bodyDecode hd littleEndian hostLittle

/-- Python floor division 255 * value // max_value on each sample, yielding
the same normalized channel three times.  A division by zero is raised at the
first sample, hence only when the data is nonempty. -/
def grayscale_gradient (data : List ℤ) (max_value : ℕ) : Option (List ℤ) :=
  if data ≠ [] ∧ max_value = 0 then none
  else some (data.flatMap fun v =>
    let n := (255 * v).fdiv (max_value : ℤ)
    [n, n, n])

/-- Python int() on a nonnegative rational: truncation toward zero.  The
rainbow mapper applies it only to arguments of the form max 0 x, which are
nonnegative, and there truncation and the floor computed by num / den
coincide. -/
def pyTruncQ (q : ℚ) : ℤ :=
  q.num / q.den

/-- Rainbow mapper: middle = max_value / 2 (true division),
r = int(max(0, 255 * (value / middle - 1))),
b = int(max(0, 255 * (1 - value / middle))), channels yielded in the order
r, 255 - b - r, b.  Python float arithmetic is modelled by exact rational
arithmetic; on every input appearing in the claims (value 0, max_value / 2 or
max_value with max_value at most 65535) each intermediate float value is
exactly representable, so the two agree there.  ZeroDivisionError from
value / middle arises exactly when max_value is 0 and data is nonempty. -/
def rainbow_gradient (data : List ℤ) (max_value : ℕ) : Option (List ℤ) :=
  if data ≠ [] ∧ max_value = 0 then none
  else some (data.flatMap fun v =>
    let middle : ℚ := (max_value : ℚ) / 2
    let r := pyTruncQ (max 0 (255 * ((v : ℚ) / middle - 1)))
    let b := pyTruncQ (max 0 (255 * (1 - (v : ℚ) / middle)))
    [r, 255 - b - r, b])

/-- bytearray(values): every integer must lie in 0..255, else ValueError. -/
def bytearrayOk (l : List ℤ) : Bool :=
  l.all fun v => decide (0 ≤ v ∧ v ≤ 255)

/-- Image surface produced by pygame.image.frombuffer: dimensions and the
interleaved RGB byte buffer. -/
structure Surface where
  width : ℕ
  height : ℕ
  data : List ℤ
deriving DecidableEq, Repr

inductive LoadResult where
  | notPgm
  | err (e : PgmError)
  | ok (s : Surface)
deriving DecidableEq, Repr

def LoadResult.isOk : LoadResult → Bool
  | .ok _ => true
  | _ => false

/-- Full load_pgm on file bytes: decode samples, apply the RGB mapper inside
bytearray(...), then pygame.image.frombuffer(data, size, "RGB"), which
raises ValueError unless the buffer length equals width * height * 3. -/
def load_pgm (contents : List Byte) (mapper : List ℤ → ℕ → Option (List ℤ))
    (littleEndian hostLittle : Bool) : LoadResult :=
  match decodeSamples contents littleEndian hostLittle with
  | .notPgm => .notPgm
  | .err e => .err e
  | .ok hd samples =>
    match mapper samples hd.maxValue with
    | none => .err .zeroDiv
    | some rgb =>
      if bytearrayOk rgb then
        if rgb.length = 3 * hd.width * hd.height
        then .ok ⟨hd.width, hd.height, rgb⟩
        else .err .bufferSize
      else .err .byteRange

/-- Number of samples carried by a sample-decode outcome. -/
def SamplesResult.samplesLen : SamplesResult → ℕ
  | .ok _ s => s.length
  | _ => 0

/-- Pixel count width * height of the header of a sample-decode outcome. -/
def SamplesResult.area : SamplesResult → ℕ
  | .ok hd _ => hd.width * hd.height
  | _ => 0

/-!
Encoders used to state the cross-encoding claim: build the P2 and P5 files of
a logical image.  The fuel of the decimal printer only bounds recursion
depth; fuel n is always sufficient for the value n.
-/

def digitByte (d : ℕ) : Byte :=
  ⟨48 + d % 10, by omega⟩

def toDecFuel : ℕ → ℕ → List Byte
  | 0, n => [digitByte n]
  | fuel + 1, n =>
    if n < 10 then [digitByte n]
    else toDecFuel fuel (n / 10) ++ [digitByte n]

/-- Decimal digit string of a natural number (ASCII bytes). -/
def toDec (n : ℕ) : List Byte :=
  toDecFuel n n

/-- High byte of a 16-bit big-endian sample. -/
def byteHi (v : ℕ) : Byte :=
  ⟨v / 256 % 256, by omega⟩

/-- Low byte of a 16-bit big-endian sample. -/
def byteLo (v : ℕ) : Byte :=
  ⟨v % 256, by omega⟩

/-- Header bytes "P2 w h m\n" or "P5 w h m\n" with single separators. -/
def pgmHeader (p5 : Bool) (w h m : ℕ) : List Byte :=
  80 :: (if p5 then (53 : Byte) else 50) :: 32 ::
    (toDec w ++ 32 :: (toDec h ++ 32 :: (toDec m ++ [10])))

/-- Join tokens with single spaces. -/
def joinSp : List (List Byte) → List Byte
  | [] => []
  | [t] => t
  | t :: ts => t ++ 32 :: joinSp ts

/-- ASCII body: the decimal samples separated by spaces. -/
def p2Body (samples : List ℕ) : List Byte :=
  joinSp (samples.map toDec)

/-- Binary body: each sample as two big-endian bytes. -/
def p5Body (samples : List ℕ) : List Byte :=
  samples.flatMap fun v => [byteHi v, byteLo v]

def encodeP2 (w h m : ℕ) (samples : List ℕ) : List Byte :=
  pgmHeader false w h m ++ p2Body samples

def encodeP5 (w h m : ℕ) (samples : List ℕ) : List Byte :=
  pgmHeader true w h m ++ p5Body samples

/-- Spine of an encoded file after the magic and its following space: the
three decimal header fields with single separators, then the body. -/
def hdrTail (w h m : ℕ) (body : List Byte) : List Byte :=
  toDec w ++ 32 :: (toDec h ++ 32 :: (toDec m ++ 10 :: body))

/-!
Concrete inputs used by counterexamples and witnesses.  Each is written as a
byte list; the comment shows the ASCII rendering, with backslash-x escapes
for non-printable bytes.
-/

/-- Bytes of "P2 1 1 300 7 9": a P2 file with width 1, height 1 and two body
tokens, one more than width * height. -/
def c1Extra : List Byte := [80, 50, 32, 49, 32, 49, 32, 51, 48, 48, 32, 55, 32, 57]

/-- Bytes of "P2 2 2 300 5": a P2 file with width 2, height 2 and only one
body token, fewer than width * height. -/
def c1Fewer : List Byte := [80, 50, 32, 50, 32, 50, 32, 51, 48, 48, 32, 53]

/-- Bytes of "P2 1 1 300 7": a P2 file with exactly width * height tokens. -/
def c1Good : List Byte := [80, 50, 32, 49, 32, 49, 32, 51, 48, 48, 32, 55]

/-- Bytes of "x P5 1 1 300 \x00\xc8": the first token is "x", not a magic,
yet the P5 header further in is found by re.search. -/
def c2Ex : List Byte := [120, 32, 80, 53, 32, 49, 32, 49, 32, 51, 48, 48, 32, 0, 200]

/-- Bytes of "P2 9 #aP5 1 1 300 \x01,": the P2 attempt fails because the
comment has no newline, so the match starts at the embedded P5 header whose
binary body is the two bytes 1, 44 (the sample 300). -/
def c3Base : List Byte :=
  [80, 50, 32, 57, 32, 35, 97, 80, 53, 32, 49, 32, 49, 32, 51, 48, 48, 32, 1, 44]

/-- Bytes of "\n 2 2 2": padding whose newline completes the comment of
c3Base, letting the earlier P2 attempt succeed with max_value 2. -/
def c3Pad : List Byte := [10, 32, 50, 32, 50, 32, 50]

/-- Bytes of "P5 2 2 300 \x00\x01": a P5 file whose body has 2 bytes, fewer
than 2 * width * height = 8. -/
def c3Trunc : List Byte := [80, 53, 32, 50, 32, 50, 32, 51, 48, 48, 32, 0, 1]

/-- Bytes of "P2 1 1 0 5": a header declaring max_value 0. -/
def c7Ex : List Byte := [80, 50, 32, 49, 32, 49, 32, 48, 32, 53]

/-- Bytes of "P2 #c\n2 1 300 #d\n100 200": comments in the positions the
regex supports, each starting right after a token's whitespace. -/
def c8Good : List Byte :=
  [80, 50, 32, 35, 99, 10, 50, 32, 49, 32, 51, 48, 48, 32, 35, 100, 10,
   49, 48, 48, 32, 50, 48, 48]

/-- Bytes of "P2\n2 1 300\n100 200": the comment-stripped equivalent of
c8Good and of c8Bad. -/
def c8Stripped : List Byte :=
  [80, 50, 10, 50, 32, 49, 32, 51, 48, 48, 10, 49, 48, 48, 32, 50, 48, 48]

/-- Bytes of "P2\n#a\n #b\n2 1 300\n100 200": the second comment line is
preceded by a space, a placement the regex cannot skip. -/
def c8Bad : List Byte :=
  [80, 50, 10, 35, 97, 10, 32, 35, 98, 10, 50, 32, 49, 32, 51, 48, 48, 10,
   49, 48, 48, 32, 50, 48, 48]

/-- Bytes of "P2 1 1 3000\n2560": ASCII encoding of the one-sample image
with value 2560 = 10 * 256. -/
def c9P2 : List Byte :=
  [80, 50, 32, 49, 32, 49, 32, 51, 48, 48, 48, 10, 50, 53, 54, 48]

/-- Bytes of "P5 1 1 3000\n\x0a\x00": binary big-endian encoding of the same
image; the high byte 10 of the sample is a newline, so it is eaten by the
trailing whitespace of the header match. -/
def c9P5 : List Byte :=
  [80, 53, 32, 49, 32, 49, 32, 51, 48, 48, 48, 10, 10, 0]

/-!
Counterexample and concrete theorems settled by kernel evaluation.
-/

/-- Claim C1, counterexample.  The claim states that for a P2 body the parser
reads exactly width * height ASCII integers and ignores extra trailing
tokens.  On "P2 1 1 300 7 9" the header is 1 x 1 with max_value 300 and the
code parses both remaining tokens, so the RGB buffer has 6 bytes instead of
3 and frombuffer raises, rather than the extra token "9" being ignored. -/
theorem claim_C1_counterexample :
    searchPGM c1Extra = some ⟨false, 1, 1, 300, [55, 32, 57]⟩ ∧
    load_pgm c1Extra grayscale_gradient false false = .err .bufferSize := by
  decide

/-- Claim C2, counterexample.  The claim states that a file whose first token
is not the magic signals NotPgm.  The file "x P5 1 1 300 \x00\xc8" has first
token "x" (head byte 120), yet re.search finds the P5 header later in the
file and load_pgm decodes it to a 1 x 1 surface instead of returning None. -/
theorem claim_C2_counterexample :
    c2Ex.head? = some 120 ∧
    load_pgm c2Ex grayscale_gradient false false = .ok ⟨1, 1, [170, 170, 170]⟩ := by
  decide

/-- Claim C3, counterexample.  The claim states that appending padding to the
file leaves the decoded result unchanged.  The file
"P2 9 #aP5 1 1 300 \x01," decodes through its embedded P5 header to a
surface, but appending "\n 2 2 2" completes the unterminated comment, the
earlier P2 attempt now matches with max_value 2, and the decode becomes
NotPgm: the appended bytes are not ignored. -/
theorem claim_C3_counterexample :
    load_pgm c3Base grayscale_gradient false false = .ok ⟨1, 1, [255, 255, 255]⟩ ∧
    load_pgm (c3Base ++ c3Pad) grayscale_gradient false false = .notPgm := by
  decide

/-- Claim C7, counterexample.  The claim states that a header declaring a
non-positive max_value is rejected as InvalidHeaderValue, treated identically
to DecodeError.  On "P2 1 1 0 5" the header parses with max_value 0 and
load_pgm returns None (the NotPgm delegation signal), not an error. -/
theorem claim_C7_counterexample :
    searchPGM c7Ex = some ⟨false, 1, 1, 0, [53]⟩ ∧
    load_pgm c7Ex grayscale_gradient false false = .notPgm := by
  decide

/-- Claim C8, counterexample.  The claim states that comments may appear
between any two whitespace-delimited header tokens and are skipped without
affecting the decode.  In "P2\n#a\n #b\n2 1 300\n100 200" the comment "#b"
sits between the magic and the width but is preceded by a space after the
previous comment line; the regex cannot skip it, the match fails and the file
decodes to NotPgm, while its comment-stripped equivalent decodes to a
surface. -/
theorem claim_C8_counterexample :
    load_pgm c8Bad grayscale_gradient false false = .notPgm ∧
    load_pgm c8Stripped grayscale_gradient false false
      = .ok ⟨2, 1, [85, 85, 85, 170, 170, 170]⟩ := by
  decide

/-- Claim C8, amended.  Comments in the placements the regex supports (each
comment line starting immediately after a token's surrounding whitespace or
immediately after a previous comment's newline) are skipped: the commented
file "P2 #c\n2 1 300 #d\n100 200" and its comment-stripped equivalent decode
to byte-identical RGB buffers. -/
theorem claim_C8_amended :
    load_pgm c8Good grayscale_gradient false false
      = load_pgm c8Stripped grayscale_gradient false false ∧
    load_pgm c8Good grayscale_gradient false false
      = .ok ⟨2, 1, [85, 85, 85, 170, 170, 170]⟩ := by
  decide

/-- Claim C9, counterexample.  The claim states that the P2 and P5 encodings
of the same logical image decode to identical sample sequences.  For the
1 x 1 image with max_value 3000 and single sample 2560 the ASCII file
decodes to the sample sequence with value 2560, but in the binary file the
sample's high byte is a newline, the trailing whitespace of the header match
consumes it, only one body byte remains and the decode fails with the
odd-length error from array.fromstring. -/
theorem claim_C9_counterexample :
    decodeSamples c9P2 false false = .ok ⟨false, 1, 1, 3000, [50, 53, 54, 48]⟩ [2560] ∧
    decodeSamples c9P5 false false = .err .oddLength := by
  decide

/-!
Helper lemmas about the matcher pieces, used by the symbolic proofs below.
-/

theorem isDigit_not_space {b : Byte} (h : isDigit b = true) : isSpace b = false := by
  simp only [isDigit, Bool.and_eq_true, decide_eq_true_eq] at h
  simp only [isSpace, Bool.or_eq_false_iff, decide_eq_false_iff_not]
  omega

theorem isDigit_ne35 {b : Byte} (h : isDigit b = true) : b.val ≠ 35 := by
  simp only [isDigit, Bool.and_eq_true, decide_eq_true_eq] at h
  omega

theorem isDigit_ne43 {b : Byte} (h : isDigit b = true) : b.val ≠ 43 := by
  simp only [isDigit, Bool.and_eq_true, decide_eq_true_eq] at h
  omega

theorem isDigit_ne45 {b : Byte} (h : isDigit b = true) : b.val ≠ 45 := by
  simp only [isDigit, Bool.and_eq_true, decide_eq_true_eq] at h
  omega

theorem isSpace_not_digit {b : Byte} (h : isSpace b = true) : isDigit b = false := by
  simp only [isSpace, Bool.or_eq_true, decide_eq_true_eq] at h
  simp only [isDigit, Bool.and_eq_false_iff, decide_eq_false_iff_not]
  omega

theorem dropWS_cons_space {b : Byte} (h : isSpace b = true) (l : List Byte) :
    dropWS (b :: l) = dropWS l := by
  simp [dropWS, List.dropWhile_cons, h]

theorem dropWS_cons_nonspace {b : Byte} (h : isSpace b = false) (l : List Byte) :
    dropWS (b :: l) = b :: l := by
  simp [dropWS, List.dropWhile_cons, h]

theorem commentRests_cons_ne {b : Byte} {t : List Byte} (h : b.val ≠ 35) :
    commentRests (b :: t) = [b :: t] := by
  simp [commentRests, commentRestsFuel, h]

theorem takeWhile_digits (ds : List Byte) (hds : ∀ b ∈ ds, isDigit b = true)
    {x : Byte} (hx : isDigit x = false) (r : List Byte) :
    (ds ++ x :: r).takeWhile isDigit = ds := by
  induction ds with
  | nil => simp [List.takeWhile_cons, hx]
  | cons a t ih =>
    have ha : isDigit a = true := hds a (by simp)
    simp only [List.cons_append, List.takeWhile_cons, ha, if_true]
    rw [ih (fun b hb => hds b (by simp [hb]))]

theorem dropWhile_digits (ds : List Byte) (hds : ∀ b ∈ ds, isDigit b = true)
    {x : Byte} (hx : isDigit x = false) (r : List Byte) :
    (ds ++ x :: r).dropWhile isDigit = x :: r := by
  induction ds with
  | nil => simp [List.dropWhile_cons, hx]
  | cons a t ih =>
    have ha : isDigit a = true := hds a (by simp)
    simp only [List.cons_append, List.dropWhile_cons, ha, if_true]
    exact ih (fun b hb => hds b (by simp [hb]))

theorem digitSplits_lead (ds : List Byte) (hne : ds ≠ [])
    (hds : ∀ b ∈ ds, isDigit b = true) {x : Byte} (hx : isDigit x = false)
    (r : List Byte) :
    ∃ tl, digitSplits (ds ++ x :: r) = (decVal ds, x :: r) :: tl := by
  unfold digitSplits
  rw [takeWhile_digits ds hds hx r, dropWhile_digits ds hds hx r]
  obtain ⟨d, rt, hrev⟩ : ∃ d rt, ds.reverse = d :: rt := by
    cases hr : ds.reverse with
    | nil =>
      exfalso
      exact hne (by simpa using congrArg List.reverse hr)
    | cons d rt => exact ⟨d, rt, rfl⟩
  rw [hrev]
  refine ⟨goRev rt (d :: (x :: r)), ?_⟩
  have hds2 : (d :: rt).reverse = ds := by
    rw [← hrev, List.reverse_reverse]
  simp [goRev, hds2]

theorem firstSome_cons_some {f : α → Option β} {a : α} {l : List α} {b : β}
    (h : f a = some b) : firstSome (a :: l) f = some b := by
  simp [firstSome, h]

theorem numberSplits_lead (ds : List Byte) (hne : ds ≠ [])
    (hds : ∀ b ∈ ds, isDigit b = true) {sep : Byte} (hsep : isSpace sep = true)
    {r : List Byte} (hdw : dropWS r = r) (hcr : commentRests r = [r]) :
    ∃ tl, numberSplits (ds ++ sep :: r) = (decVal ds, r) :: tl := by
  unfold numberSplits
  have hd1 : dropWS (ds ++ sep :: r) = ds ++ sep :: r := by
    cases ds with
    | nil => exact absurd rfl hne
    | cons d t =>
      have : isSpace d = false := isDigit_not_space (hds d (by simp))
      simpa using dropWS_cons_nonspace this (t ++ sep :: r)
  rw [hd1]
  obtain ⟨tl, htl⟩ := digitSplits_lead ds hne hds (isSpace_not_digit hsep) r
  rw [htl, List.flatMap_cons]
  have hat : afterTok (sep :: r) = [r] := by
    unfold afterTok
    rw [dropWS_cons_space hsep, hdw, hcr]
  rw [hat]
  exact ⟨tl.flatMap fun p => (afterTok p.2).map fun r2 => (p.1, r2), rfl⟩

theorem decVal_append (l : List Byte) (b : Byte) :
    decVal (l ++ [b]) = 10 * decVal l + (b.val - 48) := by
  simp [decVal, List.foldl_append]

theorem toDecFuel_ne_nil (fuel n : ℕ) : toDecFuel fuel n ≠ [] := by
  cases fuel with
  | zero => simp [toDecFuel]
  | succ fuel =>
    by_cases h : n < 10 <;> simp [toDecFuel, h]

theorem toDecFuel_digits (fuel : ℕ) : ∀ n, ∀ b ∈ toDecFuel fuel n, isDigit b = true := by
  induction fuel with
  | zero =>
    intro n b hb
    simp only [toDecFuel, List.mem_singleton] at hb
    subst hb
    simp only [isDigit, digitByte, Bool.and_eq_true, decide_eq_true_eq]
    omega
  | succ fuel ih =>
    intro n b hb
    by_cases h : n < 10
    · simp only [toDecFuel, h, if_true, List.mem_singleton] at hb
      subst hb
      simp only [isDigit, digitByte, Bool.and_eq_true, decide_eq_true_eq]
      omega
    · simp only [toDecFuel, h, if_false, List.mem_append, List.mem_singleton] at hb
      rcases hb with hb | hb
      · exact ih (n / 10) b hb
      · subst hb
        simp only [isDigit, digitByte, Bool.and_eq_true, decide_eq_true_eq]
        omega

theorem decVal_toDecFuel (fuel : ℕ) : ∀ n, n ≤ fuel → decVal (toDecFuel fuel n) = n := by
  induction fuel with
  | zero =>
    intro n hn
    have : n = 0 := by omega
    subst this
    decide
  | succ fuel ih =>
    intro n hn
    by_cases h : n < 10
    · simp only [toDecFuel, h, if_true]
      simp only [decVal, List.foldl_cons, List.foldl_nil, digitByte]
      omega
    · simp only [toDecFuel, h, if_false]
      rw [decVal_append]
      have hdiv : n / 10 ≤ fuel := by omega
      rw [ih (n / 10) hdiv]
      simp only [digitByte]
      omega

theorem toDec_ne_nil (n : ℕ) : toDec n ≠ [] :=
  toDecFuel_ne_nil n n

theorem toDec_digits (n : ℕ) : ∀ b ∈ toDec n, isDigit b = true :=
  toDecFuel_digits n n

theorem decVal_toDec (n : ℕ) : decVal (toDec n) = n :=
  decVal_toDecFuel n n le_rfl

theorem toDec_head_shape (n : ℕ) :
    ∃ d t, toDec n = d :: t ∧ isDigit d = true := by
  cases h : toDec n with
  | nil => exact absurd h (toDec_ne_nil n)
  | cons d t =>
    exact ⟨d, t, rfl, toDec_digits n d (by rw [h]; simp)⟩

theorem dropWS_toDec_append (n : ℕ) (X : List Byte) :
    dropWS (toDec n ++ X) = toDec n ++ X := by
  obtain ⟨d, t, heq, hd⟩ := toDec_head_shape n
  rw [heq, List.cons_append]
  exact dropWS_cons_nonspace (isDigit_not_space hd) _

theorem commentRests_toDec_append (n : ℕ) (X : List Byte) :
    commentRests (toDec n ++ X) = [toDec n ++ X] := by
  obtain ⟨d, t, heq, hd⟩ := toDec_head_shape n
  rw [heq, List.cons_append]
  exact commentRests_cons_ne (isDigit_ne35 hd)

theorem swGo_chunk (tok : List Byte) (hts : ∀ b ∈ tok, isSpace b = false) :
    ∀ (cur rest : List Byte), swGo cur (tok ++ rest) = swGo (tok.reverse ++ cur) rest := by
  induction tok with
  | nil => intro cur rest; simp
  | cons a t ih =>
    intro cur rest
    have ha : isSpace a = false := hts a (by simp)
    have ih2 := ih (fun b hb => hts b (by simp [hb])) (a :: cur) rest
    simp only [List.cons_append, swGo, ha, Bool.false_eq_true, if_false] at ih2 ⊢
    have hrw : (a :: t).reverse ++ cur = t.reverse ++ a :: cur := by
      simp [List.append_assoc]
    rw [hrw]
    exact ih2

theorem splitWS_joinSp (toks : List (List Byte))
    (h : ∀ t ∈ toks, t ≠ [] ∧ ∀ b ∈ t, isSpace b = false) :
    splitWS (joinSp toks) = toks := by
  induction toks with
  | nil => rfl
  | cons t ts ih =>
    obtain ⟨hne, hns⟩ := h t (by simp)
    cases ts with
    | nil =>
      show splitWS (joinSp [t]) = [t]
      unfold joinSp splitWS
      rw [show t = t ++ [] by simp, swGo_chunk t hns [] []]
      simp only [List.append_nil, swGo]
      have : t.reverse ≠ [] := by simpa using hne
      simp [this]
    | cons u us =>
      show splitWS (t ++ 32 :: joinSp (u :: us)) = t :: u :: us
      unfold splitWS
      rw [swGo_chunk t hns [] (32 :: joinSp (u :: us))]
      simp only [List.append_nil, swGo]
      have h32 : isSpace (32 : Byte) = true := by decide
      have : t.reverse ≠ [] := by simpa using hne
      simp only [h32, if_true, this, if_false, List.reverse_reverse]
      rw [show swGo [] (joinSp (u :: us)) = splitWS (joinSp (u :: us)) from rfl]
      rw [ih (fun x hx => h x (by simp [hx]))]

theorem pyInt_toDec (n : ℕ) : pyInt (toDec n) = some ((n : ℕ) : ℤ) := by
  obtain ⟨d, t, heq, hd⟩ := toDec_head_shape n
  rw [heq]
  rw [show pyInt (d :: t)
        = if d.val = 43 then digitsVal t
          else if d.val = 45 then (digitsVal t).map (fun z => -z)
          else digitsVal (d :: t) from rfl]
  rw [if_neg (isDigit_ne43 hd), if_neg (isDigit_ne45 hd)]
  unfold digitsVal
  rw [if_pos]
  · rw [← heq, decVal_toDec]
  · constructor
    · simp
    · rw [List.all_eq_true, ← heq]
      intro b hb
      exact toDec_digits n b hb

theorem parseTokens_toDec (l : List ℕ) :
    parseTokens (l.map toDec) = some (l.map Int.ofNat) := by
  induction l with
  | nil => rfl
  | cons v vs ih =>
    simp only [List.map_cons, parseTokens, pyInt_toDec, ih]
    rfl

theorem readPairs_swap (host : Bool) :
    ∀ raw : List Byte, (readPairs host raw).map swap16 = readPairs (!host) raw
  | [] => by simp [readPairs]
  | [b] => by simp [readPairs]
  | b0 :: b1 :: t => by
    have h0 := b0.isLt
    have h1 := b1.isLt
    cases host
    · show swap16 (256 * b0.val + b1.val) :: (readPairs false t).map swap16
          = (b0.val + 256 * b1.val) :: readPairs true t
      rw [readPairs_swap false t]
      congr 1
      unfold swap16
      omega
    · show swap16 (b0.val + 256 * b1.val) :: (readPairs true t).map swap16
          = (256 * b0.val + b1.val) :: readPairs false t
      rw [readPairs_swap true t]
      congr 1
      unfold swap16
      omega

theorem readPairs_length (little : Bool) :
    ∀ raw : List Byte, (readPairs little raw).length = raw.length / 2
  | [] => by simp [readPairs]
  | [b] => by simp [readPairs]
  | b0 :: b1 :: t => by
    simp only [readPairs, List.length_cons, readPairs_length little t]
    omega

theorem condSwap (host le : Bool) (raw : List Byte) :
    (if host ≠ le then (readPairs host raw).map swap16 else readPairs host raw)
      = readPairs le raw := by
  by_cases h : host = le
  · subst h; simp
  · rw [if_pos h, readPairs_swap]
    cases host <;> cases le <;> simp_all

theorem p5Body_length (l : List ℕ) : (p5Body l).length = 2 * l.length := by
  induction l with
  | nil => rfl
  | cons v vs ih =>
    simp only [p5Body, List.flatMap_cons] at ih ⊢
    simp only [List.length_append, List.length_cons, List.length_nil, ih]
    omega

theorem readPairs_p5Body (l : List ℕ) (h : ∀ v ∈ l, v < 65536) :
    readPairs false (p5Body l) = l := by
  induction l with
  | nil => rfl
  | cons v vs ih =>
    have hv : v < 65536 := h v (by simp)
    show readPairs false (byteHi v :: byteLo v :: p5Body vs) = v :: vs
    simp only [readPairs, if_false, Bool.false_eq_true]
    rw [ih (fun x hx => h x (by simp [hx]))]
    congr 1
    simp only [byteHi, byteLo]
    omega

theorem flatMap_three_length (f : ℤ → List ℤ) (h : ∀ v, (f v).length = 3) :
    ∀ l : List ℤ, (l.flatMap f).length = 3 * l.length := by
  intro l
  induction l with
  | nil => rfl
  | cons v vs ih =>
    simp only [List.flatMap_cons, List.length_append, ih, h v, List.length_cons]
    omega

theorem grayscale_tripling (l : List ℤ) (m : ℕ) (r : List ℤ)
    (h : grayscale_gradient l m = some r) : r.length = 3 * l.length := by
  unfold grayscale_gradient at h
  split at h
  · cases h
  · injection h with h
    rw [← h]
    exact flatMap_three_length
      (fun v => let n := (255 * v).fdiv ((m : ℕ) : ℤ); [n, n, n]) (fun v => rfl) l

theorem rainbow_tripling (l : List ℤ) (m : ℕ) (r : List ℤ)
    (h : rainbow_gradient l m = some r) : r.length = 3 * l.length := by
  unfold rainbow_gradient at h
  split at h
  · cases h
  · injection h with h
    rw [← h]
    apply flatMap_three_length
    intro v
    rfl

theorem magicTail (isP5val : Bool) (w h m : ℕ) (body : List Byte)
    (hdw : dropWS body = body) (hcr : commentRests body = [body]) :
    (firstSome (numberSplits (hdrTail w h m body)) fun pw =>
     firstSome (numberSplits pw.2) fun ph =>
     firstSome (numberSplits ph.2) fun pm =>
     some (⟨isP5val, pw.1, ph.1, pm.1, pm.2⟩ : Header))
      = some ⟨isP5val, w, h, m, body⟩ := by
  obtain ⟨tl1, h1⟩ :=
    numberSplits_lead (toDec w) (toDec_ne_nil w) (toDec_digits w)
      (by decide : isSpace (32 : Byte) = true)
      (dropWS_toDec_append h (32 :: (toDec m ++ 10 :: body)))
      (commentRests_toDec_append h (32 :: (toDec m ++ 10 :: body)))
  rw [hdrTail, h1, decVal_toDec]
  refine firstSome_cons_some ?_
  simp only []
  obtain ⟨tl2, h2⟩ :=
    numberSplits_lead (toDec h) (toDec_ne_nil h) (toDec_digits h)
      (by decide : isSpace (32 : Byte) = true)
      (dropWS_toDec_append m (10 :: body))
      (commentRests_toDec_append m (10 :: body))
  rw [h2, decVal_toDec]
  refine firstSome_cons_some ?_
  simp only []
  obtain ⟨tl3, h3⟩ :=
    numberSplits_lead (toDec m) (toDec_ne_nil m) (toDec_digits m)
      (by decide : isSpace (10 : Byte) = true) hdw hcr
  rw [h3, decVal_toDec]
  exact firstSome_cons_some rfl

theorem searchPGM_pgmHeader (p5 : Bool) (w h m : ℕ) {body : List Byte}
    {b0 : Byte} {bs : List Byte} (hb : body = b0 :: bs)
    (hs : isSpace b0 = false) (h35 : b0.val ≠ 35) :
    searchPGM (pgmHeader p5 w h m ++ body) = some ⟨p5, w, h, m, body⟩ := by
  have hdw : dropWS body = body := by
    rw [hb]; exact dropWS_cons_nonspace hs bs
  have hcr : commentRests body = [body] := by
    rw [hb]; exact commentRests_cons_ne h35
  have hat : afterTok (32 :: hdrTail w h m body) = [hdrTail w h m body] := by
    unfold afterTok hdrTail
    rw [dropWS_cons_space (by decide), dropWS_toDec_append, commentRests_toDec_append]
  cases p5
  · have hassoc : pgmHeader false w h m ++ body
        = 80 :: 50 :: 32 :: hdrTail w h m body := by
      simp [pgmHeader, hdrTail, List.append_assoc]
    rw [hassoc]
    have hatt : attempt (80 :: 50 :: 32 :: hdrTail w h m body)
        = some ⟨false, w, h, m, body⟩ := by
      have step1 : attempt (80 :: 50 :: 32 :: hdrTail w h m body)
          = firstSome (afterTok (32 :: hdrTail w h m body)) (fun r1 =>
            firstSome (numberSplits r1) fun pw =>
            firstSome (numberSplits pw.2) fun ph =>
            firstSome (numberSplits ph.2) fun pm =>
            some ⟨false, pw.1, ph.1, pm.1, pm.2⟩) := rfl
      rw [step1, hat]
      exact firstSome_cons_some (magicTail false w h m body hdw hcr)
    simp [searchPGM, hatt]
  · have hassoc : pgmHeader true w h m ++ body
        = 80 :: 53 :: 32 :: hdrTail w h m body := by
      simp [pgmHeader, hdrTail, List.append_assoc]
    rw [hassoc]
    have hatt : attempt (80 :: 53 :: 32 :: hdrTail w h m body)
        = some ⟨true, w, h, m, body⟩ := by
      have step1 : attempt (80 :: 53 :: 32 :: hdrTail w h m body)
          = firstSome (afterTok (32 :: hdrTail w h m body)) (fun r1 =>
            firstSome (numberSplits r1) fun pw =>
            firstSome (numberSplits pw.2) fun ph =>
            firstSome (numberSplits ph.2) fun pm =>
            some ⟨true, pw.1, ph.1, pm.1, pm.2⟩) := rfl
      rw [step1, hat]
      exact firstSome_cons_some (magicTail true w h m body hdw hcr)
    simp [searchPGM, hatt]

theorem decodeSamples_search_pos {contents : List Byte} {hd : Header}
    {le host : Bool} (hs : searchPGM contents = some hd)
    (hm : ¬ hd.maxValue ≤ 255) :
    decodeSamples contents le host = bodyDecode hd le host := by
  unfold decodeSamples
  rw [hs]
  dsimp only
  rw [if_neg hm]

theorem bodyDecode_p2 (w h m : ℕ) (body : List Byte) (le host : Bool) :
    bodyDecode ⟨false, w, h, m, body⟩ le host
      = match parseTokens (splitWS body) with
        | none => .err .valueError
        | some samples => .ok ⟨false, w, h, m, body⟩ samples := rfl

theorem bodyDecode_p5 (w h m : ℕ) (body : List Byte) (le host : Bool) :
    bodyDecode ⟨true, w, h, m, body⟩ le host
      = if (body.take (2 * w * h)).length % 2 = 1 then .err .oddLength
        else .ok ⟨true, w, h, m, body⟩
          ((if host ≠ le then (readPairs host (body.take (2 * w * h))).map swap16
            else readPairs host (body.take (2 * w * h))).map Int.ofNat) := rfl

/-- Claim C9, amended.  For every logical image given as width, height,
max_value > 255 and a nonempty row-major sample list of 16-bit values with
width * height entries, the decode of its ASCII P2 encoding and the decode of
its binary big-endian P5 encoding yield the same sample sequence — provided
the first byte of the binary body (the high byte of the first sample) is
neither a whitespace byte nor the comment byte 35, since otherwise the
trailing whitespace-and-comments of the header match consume body bytes and
the equivalence fails (see the counterexample). -/
theorem claim_C9_amended :
    ∀ (w h m v0 : ℕ) (vs : List ℕ) (le host : Bool),
      (v0 :: vs).length = w * h →
      (∀ v ∈ v0 :: vs, v < 65536) →
      255 < m →
      isSpace (byteHi v0) = false →
      (byteHi v0).val ≠ 35 →
      decodeSamples (encodeP2 w h m (v0 :: vs)) le host
          = .ok ⟨false, w, h, m, p2Body (v0 :: vs)⟩ ((v0 :: vs).map Int.ofNat) ∧
      decodeSamples (encodeP5 w h m (v0 :: vs)) false host
          = .ok ⟨true, w, h, m, p5Body (v0 :: vs)⟩ ((v0 :: vs).map Int.ofNat) := by
  intro w h m v0 vs le host hlen hbound hm hsp h35
  have hmle : ¬ (m ≤ 255) := by omega
  constructor
  · obtain ⟨d, dt, hd_eq, hd_dig⟩ := toDec_head_shape v0
    obtain ⟨X, hX⟩ : ∃ X, p2Body (v0 :: vs) = toDec v0 ++ X := by
      cases vs with
      | nil => exact ⟨[], by simp [p2Body, joinSp]⟩
      | cons u us => exact ⟨32 :: joinSp ((u :: us).map toDec), by simp [p2Body, joinSp]⟩
    have hb : p2Body (v0 :: vs) = d :: (dt ++ X) := by
      rw [hX, hd_eq]
      rfl
    have hsrch : searchPGM (encodeP2 w h m (v0 :: vs))
        = some ⟨false, w, h, m, p2Body (v0 :: vs)⟩ :=
      searchPGM_pgmHeader false w h m hb (isDigit_not_space hd_dig)
        (isDigit_ne35 hd_dig)
    rw [decodeSamples_search_pos hsrch hmle, bodyDecode_p2]
    have hsplit : splitWS (p2Body (v0 :: vs)) = (v0 :: vs).map toDec :=
      splitWS_joinSp _ (by
        intro t ht
        simp only [List.mem_map] at ht
        obtain ⟨n, hn, rfl⟩ := ht
        exact ⟨toDec_ne_nil n, fun b hb2 => isDigit_not_space (toDec_digits n b hb2)⟩)
    rw [hsplit, parseTokens_toDec]
  · have hb5 : p5Body (v0 :: vs) = byteHi v0 :: (byteLo v0 :: p5Body vs) := rfl
    have hsrch : searchPGM (encodeP5 w h m (v0 :: vs))
        = some ⟨true, w, h, m, p5Body (v0 :: vs)⟩ :=
      searchPGM_pgmHeader true w h m hb5 hsp h35
    rw [decodeSamples_search_pos hsrch hmle, bodyDecode_p5]
    have htake : (p5Body (v0 :: vs)).take (2 * w * h) = p5Body (v0 :: vs) := by
      apply List.take_of_length_le
      rw [p5Body_length, hlen]
      exact le_of_eq (by ring)
    rw [htake]
    have hpar : ¬ ((p5Body (v0 :: vs)).length % 2 = 1) := by
      rw [p5Body_length]
      omega
    rw [if_neg hpar, condSwap host false (p5Body (v0 :: vs)),
      readPairs_p5Body _ hbound]

/-- Claim C9, witness: the amended claim at the 1 x 1 image with max_value
300 and single sample 77. -/
theorem claim_C9_witness :
    decodeSamples (encodeP2 1 1 300 [77]) false false
        = .ok ⟨false, 1, 1, 300, p2Body [77]⟩ ([77].map Int.ofNat) ∧
    decodeSamples (encodeP5 1 1 300 [77]) false false
        = .ok ⟨true, 1, 1, 300, p5Body [77]⟩ ([77].map Int.ofNat) :=
  claim_C9_amended 1 1 300 77 [] false false (by decide) (by decide) (by decide)
    (by decide) (by decide)

theorem bodyDecode_ok_hd {hd hd2 : Header} {le host : Bool} {s : List ℤ}
    (h : bodyDecode hd le host = .ok hd2 s) : hd2 = hd := by
  obtain ⟨i5, w, hh, m, rest⟩ := hd
  cases i5
  · rw [bodyDecode_p2] at h
    cases hpt : parseTokens (splitWS rest) with
    | none => rw [hpt] at h; cases h
    | some s2 =>
      rw [hpt] at h
      injection h with h1 h2
      exact h1.symm
  · rw [bodyDecode_p5] at h
    by_cases hpar : (rest.take (2 * w * hh)).length % 2 = 1
    · rw [if_pos hpar] at h; cases h
    · rw [if_neg hpar] at h
      injection h with h1 h2
      exact h1.symm

theorem bodyDecode_ne_notPgm (hd : Header) (le host : Bool) :
    bodyDecode hd le host ≠ .notPgm := by
  intro h
  obtain ⟨i5, w, hh, m, rest⟩ := hd
  cases i5
  · rw [bodyDecode_p2] at h
    cases hpt : parseTokens (splitWS rest) with
    | none => rw [hpt] at h; cases h
    | some s2 => rw [hpt] at h; cases h
  · rw [bodyDecode_p5] at h
    by_cases hpar : (rest.take (2 * w * hh)).length % 2 = 1
    · rw [if_pos hpar] at h; cases h
    · rw [if_neg hpar] at h; cases h

theorem bodyDecode_err_inv {hd : Header} {le host : Bool} {e : PgmError}
    (h : bodyDecode hd le host = .err e) : e = .oddLength ∨ e = .valueError := by
  obtain ⟨i5, w, hh, m, rest⟩ := hd
  cases i5
  · rw [bodyDecode_p2] at h
    cases hpt : parseTokens (splitWS rest) with
    | none =>
      rw [hpt] at h
      injection h with h1
      exact Or.inr h1.symm
    | some s2 => rw [hpt] at h; cases h
  · rw [bodyDecode_p5] at h
    by_cases hpar : (rest.take (2 * w * hh)).length % 2 = 1
    · rw [if_pos hpar] at h
      injection h with h1
      exact Or.inl h1.symm
    · rw [if_neg hpar] at h; cases h

theorem decodeSamples_err_inv {c : List Byte} {le host : Bool} {e : PgmError}
    (h : decodeSamples c le host = .err e) : e = .oddLength ∨ e = .valueError := by
  unfold decodeSamples at h
  cases hs : searchPGM c with
  | none => rw [hs] at h; cases h
  | some hd =>
    rw [hs] at h
    dsimp only at h
    by_cases hm : hd.maxValue ≤ 255
    · rw [if_pos hm] at h; cases h
    · rw [if_neg hm] at h
      exact bodyDecode_err_inv h

theorem decodeSamples_ok_max {c : List Byte} {le host : Bool} {hd : Header}
    {s : List ℤ} (h : decodeSamples c le host = .ok hd s) : 255 < hd.maxValue := by
  unfold decodeSamples at h
  cases hs : searchPGM c with
  | none => rw [hs] at h; cases h
  | some hd2 =>
    rw [hs] at h
    dsimp only at h
    by_cases hm : hd2.maxValue ≤ 255
    · rw [if_pos hm] at h; cases h
    · rw [if_neg hm] at h
      rw [bodyDecode_ok_hd h]
      omega

theorem decodeSamples_notPgm_iff {c : List Byte} {le host : Bool} :
    decodeSamples c le host = .notPgm ↔
      (searchPGM c = none ∨ ∃ hd, searchPGM c = some hd ∧ hd.maxValue ≤ 255) := by
  constructor
  · intro h
    unfold decodeSamples at h
    cases hs : searchPGM c with
    | none => exact Or.inl rfl
    | some hd =>
      rw [hs] at h
      dsimp only at h
      by_cases hm : hd.maxValue ≤ 255
      · exact Or.inr ⟨hd, rfl, hm⟩
      · rw [if_neg hm] at h
        exact absurd h (bodyDecode_ne_notPgm hd le host)
  · rintro (hs | ⟨hd, hs, hm⟩)
    · unfold decodeSamples
      rw [hs]
    · unfold decodeSamples
      rw [hs]
      dsimp only
      rw [if_pos hm]

theorem load_pgm_notPgm_iff {c : List Byte}
    {mapper : List ℤ → ℕ → Option (List ℤ)} {le host : Bool} :
    load_pgm c mapper le host = .notPgm ↔ decodeSamples c le host = .notPgm := by
  cases hds : decodeSamples c le host with
  | notPgm => simp [load_pgm, hds]
  | err e => simp [load_pgm, hds]
  | ok hd s =>
    simp only [load_pgm, hds]
    constructor
    · intro h
      cases hmp : mapper s hd.maxValue with
      | none => rw [hmp] at h; cases h
      | some rgb =>
        rw [hmp] at h
        dsimp only at h
        by_cases hba : bytearrayOk rgb = true
        · rw [if_pos hba] at h
          by_cases hl : rgb.length = 3 * hd.width * hd.height
          · rw [if_pos hl] at h; cases h
          · rw [if_neg hl] at h; cases h
        · rw [if_neg hba] at h; cases h
    · intro h
      cases h

/-- Claim C1, amended.  Whenever load_pgm succeeds the decoded sample
sequence has length exactly width * height and the RGB buffer has length
3 * width * height (frombuffer enforces the equality); but for a P2 body the
code parses all remaining whitespace-separated tokens rather than exactly
width * height of them, so extra trailing tokens are not ignored: a token
count different from width * height — fewer or extra — is a decode error at
buffer construction, as the conjunct about the too-short file shows. -/
theorem claim_C1_amended :
    (∀ (contents : List Byte) (mapper : List ℤ → ℕ → Option (List ℤ))
       (le host : Bool) (surf : Surface),
       (∀ l m r, mapper l m = some r → r.length = 3 * l.length) →
       load_pgm contents mapper le host = .ok surf →
       (decodeSamples contents le host).samplesLen
         = (decodeSamples contents le host).area ∧
       surf.data.length = 3 * (surf.width * surf.height)) ∧
    load_pgm c1Fewer grayscale_gradient false false = .err .bufferSize := by
  constructor
  · intro contents mapper le host surf hmap hok
    unfold load_pgm at hok
    cases hds : decodeSamples contents le host with
    | notPgm => rw [hds] at hok; cases hok
    | err e => rw [hds] at hok; cases hok
    | ok hd s =>
      rw [hds] at hok
      dsimp only at hok
      cases hmp : mapper s hd.maxValue with
      | none => rw [hmp] at hok; cases hok
      | some rgb =>
        rw [hmp] at hok
        dsimp only at hok
        by_cases hba : bytearrayOk rgb = true
        · rw [if_pos hba] at hok
          by_cases hl : rgb.length = 3 * hd.width * hd.height
          · rw [if_pos hl] at hok
            injection hok with hok
            have hlen := hmap s hd.maxValue rgb hmp
            have hl2 : rgb.length = 3 * (hd.width * hd.height) := by
              rw [hl]; ring
            constructor
            · simp only [SamplesResult.samplesLen, SamplesResult.area]
              have h3 : 3 * s.length = 3 * (hd.width * hd.height) := by omega
              omega
            · rw [← hok]
              dsimp only
              rw [hl]
              ring
          · rw [if_neg hl] at hok; cases hok
        · rw [if_neg hba] at hok; cases hok
  · decide

/-- Claim C1, witness: the amended claim at the well-formed file
"P2 1 1 300 7", whose decode succeeds with the surface of sample 7. -/
theorem claim_C1_witness :
    (decodeSamples c1Good false false).samplesLen
      = (decodeSamples c1Good false false).area ∧
    (⟨1, 1, [5, 5, 5]⟩ : Surface).data.length = 3 * ((1 : ℕ) * 1) :=
  claim_C1_amended.1 c1Good grayscale_gradient false false ⟨1, 1, [5, 5, 5]⟩
    grayscale_tripling (by decide)

/-- Claim C2, amended.  load_pgm returns the NotPgm signal (None) exactly
when the regex search — which scans the whole file, not only its first
token — finds no P2 or P5 header, or when the matched header's max_value is
at most 255: a file whose first token is not the magic can still decode if a
header appears further in (see the counterexample). -/
theorem claim_C2_amended :
    ∀ (contents : List Byte) (mapper : List ℤ → ℕ → Option (List ℤ))
      (le host : Bool),
      load_pgm contents mapper le host = .notPgm ↔
        (searchPGM contents = none ∨
         ∃ hd, searchPGM contents = some hd ∧ hd.maxValue ≤ 255) :=
  fun _ _ _ _ => load_pgm_notPgm_iff.trans decodeSamples_notPgm_iff

/-- Claim C3, amended.  For a P5 header with max_value > 255 the decoder
consumes only the first 2 * width * height bytes of raw_data: a body with
fewer available bytes never yields a successful surface (the odd-length or
buffer-length error fires), and appending bytes to the file leaves the
result unchanged provided the header match itself is unchanged by the
padding — without that proviso the padding can alter the regex match and
change the result (see the counterexample). -/
theorem claim_C3_amended :
    ∀ (contents : List Byte) (mapper : List ℤ → ℕ → Option (List ℤ))
      (le host : Bool) (hd : Header),
      (∀ l m r, mapper l m = some r → r.length = 3 * l.length) →
      searchPGM contents = some hd →
      hd.isP5 = true →
      255 < hd.maxValue →
      ((hd.rest.length < 2 * hd.width * hd.height →
          (load_pgm contents mapper le host).isOk = false) ∧
       (∀ extra : List Byte,
          2 * hd.width * hd.height ≤ hd.rest.length →
          searchPGM (contents ++ extra)
            = some ⟨hd.isP5, hd.width, hd.height, hd.maxValue, hd.rest ++ extra⟩ →
          load_pgm (contents ++ extra) mapper le host
            = load_pgm contents mapper le host)) := by
  intro contents mapper le host hd hmap hs h5 hm
  obtain ⟨i5, w, hh, m, rest⟩ := hd
  dsimp only at h5 hm ⊢
  subst h5
  have hmle : ¬ (m ≤ 255) := by omega
  constructor
  · intro hlt
    have hds : decodeSamples contents le host
        = bodyDecode ⟨true, w, hh, m, rest⟩ le host :=
      decodeSamples_search_pos hs hmle
    rw [bodyDecode_p5] at hds
    have htake : rest.take (2 * w * hh) = rest :=
      List.take_of_length_le (by omega)
    rw [htake] at hds
    by_cases hpar : rest.length % 2 = 1
    · rw [if_pos hpar] at hds
      unfold load_pgm
      rw [hds]
      rfl
    · rw [if_neg hpar] at hds
      unfold load_pgm
      rw [hds]
      dsimp only
      set S := (if host ≠ le then (readPairs host rest).map swap16
                else readPairs host rest).map Int.ofNat with hS
      have hSlen : S.length = rest.length / 2 := by
        rw [hS, List.length_map]
        by_cases hc : host ≠ le
        · rw [if_pos hc, List.length_map, readPairs_length]
        · rw [if_neg hc, readPairs_length]
      cases hmp : mapper S m with
      | none => rfl
      | some rgb =>
        dsimp only
        by_cases hba : bytearrayOk rgb = true
        · rw [if_pos hba]
          have hrgb := hmap S m rgb hmp
          have hne : ¬ (rgb.length = 3 * w * hh) := by
            rw [hrgb, hSlen]
            have h3 : (3 : ℕ) * w * hh = 3 * (w * hh) := by ring
            rw [h3]
            have h2 : (2 : ℕ) * w * hh = 2 * (w * hh) := by ring
            rw [h2] at hlt
            omega
          rw [if_neg hne]
          rfl
        · rw [if_neg hba]
          rfl
  · intro extra hge hs2
    have hds1 : decodeSamples contents le host
        = bodyDecode ⟨true, w, hh, m, rest⟩ le host :=
      decodeSamples_search_pos hs hmle
    have hds2 : decodeSamples (contents ++ extra) le host
        = bodyDecode ⟨true, w, hh, m, rest ++ extra⟩ le host :=
      decodeSamples_search_pos hs2 hmle
    rw [bodyDecode_p5] at hds1 hds2
    have htk : (rest ++ extra).take (2 * w * hh) = rest.take (2 * w * hh) :=
      List.take_append_of_le_length hge
    rw [htk] at hds2
    unfold load_pgm
    rw [hds1, hds2]
    by_cases hpar : ((rest.take (2 * w * hh)).length % 2 = 1)
    · rw [if_pos hpar, if_pos hpar]
    · rw [if_neg hpar, if_neg hpar]

/-- Claim C3, witness: the truncated-body half of the amended claim at the
file "P5 2 2 300 \x00\x01", whose body has 2 of the required 8 bytes. -/
theorem claim_C3_witness :
    (load_pgm c3Trunc grayscale_gradient false false).isOk = false :=
  (claim_C3_amended c3Trunc grayscale_gradient false false
    ⟨true, 2, 2, 300, [0, 1]⟩ grayscale_tripling (by decide) rfl (by decide)).1
    (by decide)

theorem bodyDecode_host_inv (hd : Header) (le a b : Bool) :
    bodyDecode hd le a = bodyDecode hd le b := by
  obtain ⟨i5, w, hh, m, rest⟩ := hd
  cases i5
  · rfl
  · rw [bodyDecode_p5, bodyDecode_p5, condSwap a le, condSwap b le]

/-- Claim C4.  The P5 decode produces samples interpreted in the configured
byte order regardless of the host byte order: the sample decode is invariant
under the host parameter; the source's conditional byteswap (applied exactly
when the host order differs from the configured order) equals the direct
read in the configured order; and for a single 2-byte sample the
little-endian and big-endian configurations yield byte-swapped values, which
differ exactly when the sample's two bytes differ. -/
theorem claim_C4 :
    (∀ (contents : List Byte) (le h1 h2 : Bool),
       decodeSamples contents le h1 = decodeSamples contents le h2) ∧
    (∀ (raw : List Byte) (host le : Bool),
       (if host ≠ le then (readPairs host raw).map swap16 else readPairs host raw)
         = readPairs le raw) ∧
    (∀ b0 b1 : Byte,
       readPairs true [b0, b1] = [b0.val + 256 * b1.val] ∧
       readPairs false [b0, b1] = [256 * b0.val + b1.val] ∧
       (b0.val + 256 * b1.val = 256 * b0.val + b1.val ↔ b0 = b1)) := by
  refine ⟨?_, ?_, ?_⟩
  · intro contents le h1 h2
    unfold decodeSamples
    cases hs : searchPGM contents with
    | none => rfl
    | some hd =>
      dsimp only
      by_cases hm : hd.maxValue ≤ 255
      · rw [if_pos hm, if_pos hm]
      · rw [if_neg hm, if_neg hm]
        exact bodyDecode_host_inv hd le h1 h2
  · intro raw host le
    exact condSwap host le raw
  · intro b0 b1
    refine ⟨rfl, rfl, ?_⟩
    have hb0 := b0.isLt
    have hb1 := b1.isLt
    constructor
    · intro h
      have : b0.val = b1.val := by omega
      exact Fin.ext this
    · intro h
      rw [h]
      ring

/-- Claim C7, amended.  A header whose max_value is 0 is not rejected as an
error: it falls under the max_value <= 255 check and load_pgm returns the
NotPgm delegation signal; zero width or height likewise pass header parsing
(the regex accepts the digit 0).  Nonetheless every gradient-mapper
invocation happens with max_value > 255, so the mappers never see a zero
divisor: with max_value > 255 both mappers succeed on any sample. -/
theorem claim_C7_amended :
    (∀ (contents : List Byte) (mapper : List ℤ → ℕ → Option (List ℤ))
       (le host : Bool) (hd : Header),
       searchPGM contents = some hd → hd.maxValue = 0 →
       load_pgm contents mapper le host = .notPgm) ∧
    (∀ (v : ℤ) (m : ℕ), 255 < m →
       (grayscale_gradient [v] m).isSome = true ∧
       (rainbow_gradient [v] m).isSome = true) := by
  constructor
  · intro contents mapper le host hd hs h0
    rw [load_pgm_notPgm_iff, decodeSamples_notPgm_iff]
    exact Or.inr ⟨hd, hs, by omega⟩
  · intro v m hm
    have hcond : ¬ (([v] : List ℤ) ≠ [] ∧ m = 0) := by
      rintro ⟨-, h0⟩
      omega
    constructor
    · unfold grayscale_gradient
      rw [if_neg hcond]
      rfl
    · unfold rainbow_gradient
      rw [if_neg hcond]
      rfl

/-- Claim C7, witness: the amended claim at the file "P2 1 1 0 5" (max_value
0 gives NotPgm) and at the sample 5 with max_value 300 (both mappers
succeed). -/
theorem claim_C7_witness :
    load_pgm c7Ex grayscale_gradient false false = .notPgm ∧
    ((grayscale_gradient [5] 300).isSome = true ∧
     (rainbow_gradient [5] 300).isSome = true) :=
  ⟨claim_C7_amended.1 c7Ex grayscale_gradient false false ⟨false, 1, 1, 0, [53]⟩
      (by decide) rfl,
   claim_C7_amended.2 5 300 (by decide)⟩

theorem load_pgm_no_zeroDiv (mapper : List ℤ → ℕ → Option (List ℤ))
    (hm : ∀ (l : List ℤ) (m : ℕ), 255 < m → mapper l m ≠ none)
    (contents : List Byte) (le host : Bool) :
    load_pgm contents mapper le host ≠ .err .zeroDiv := by
  intro h
  unfold load_pgm at h
  cases hds : decodeSamples contents le host with
  | notPgm => rw [hds] at h; cases h
  | err e =>
    rw [hds] at h
    injection h with h
    rcases decodeSamples_err_inv hds with he | he <;> subst he <;>
      exact absurd h (by decide)
  | ok hd s =>
    rw [hds] at h
    dsimp only at h
    cases hmp : mapper s hd.maxValue with
    | none => exact hm s hd.maxValue (decodeSamples_ok_max hds) hmp
    | some rgb =>
      rw [hmp] at h
      dsimp only at h
      by_cases hba : bytearrayOk rgb = true
      · rw [if_pos hba] at h
        by_cases hl : rgb.length = 3 * hd.width * hd.height
        · rw [if_pos hl] at h; cases h
        · rw [if_neg hl] at h
          injection h with h
          exact absurd h (by decide)
      · rw [if_neg hba] at h
        injection h with h
        exact absurd h (by decide)

theorem grayscale_gradient_pos (l : List ℤ) (m : ℕ) (hm : 255 < m) :
    grayscale_gradient l m ≠ none := by
  unfold grayscale_gradient
  rw [if_neg (by rintro ⟨-, h0⟩; omega)]
  intro h
  cases h

theorem rainbow_gradient_pos (l : List ℤ) (m : ℕ) (hm : 255 < m) :
    rainbow_gradient l m ≠ none := by
  unfold rainbow_gradient
  rw [if_neg (by rintro ⟨-, h0⟩; omega)]
  intro h
  cases h

/-- Claim C10.  load_pgm never divides by zero: although the header regex
accepts a declared max_value of 0, the max_value <= 255 check returns the
NotPgm signal before either gradient mapper runs, so for every input byte
sequence, with either mapper, the ZeroDivisionError outcome is impossible. -/
theorem claim_C10 :
    ∀ (contents : List Byte) (le host : Bool),
      load_pgm contents grayscale_gradient le host ≠ .err .zeroDiv ∧
      load_pgm contents rainbow_gradient le host ≠ .err .zeroDiv :=
  fun contents le host =>
    ⟨load_pgm_no_zeroDiv grayscale_gradient
        (fun l m hm => grayscale_gradient_pos l m hm) contents le host,
     load_pgm_no_zeroDiv rainbow_gradient
        (fun l m hm => rainbow_gradient_pos l m hm) contents le host⟩

/-- Claim C5.  In grayscale mode each output pixel's three channels are
identical and equal to floor(255 * sample / max_value) by integer floor
division (Python //, modelled by Int.fdiv); for a sample in [0, max_value]
the channel lies in [0, 255]; and the sample 1 with max_value 2 maps to
127, 127, 127. -/
theorem claim_C5 :
    (∀ (data : List ℤ) (m : ℕ), 0 < m →
       grayscale_gradient data m
         = some (data.flatMap fun v =>
             [(255 * v).fdiv (m : ℤ), (255 * v).fdiv (m : ℤ),
              (255 * v).fdiv (m : ℤ)])) ∧
    (∀ (v : ℤ) (m : ℕ), 0 < m → 0 ≤ v → v ≤ (m : ℤ) →
       0 ≤ (255 * v).fdiv (m : ℤ) ∧ (255 * v).fdiv (m : ℤ) ≤ 255) ∧
    grayscale_gradient [1] 2 = some [127, 127, 127] := by
  refine ⟨?_, ?_, by decide⟩
  · intro data m hm
    unfold grayscale_gradient
    rw [if_neg (by rintro ⟨-, h0⟩; omega)]
  · intro v m hm h0 hle
    have hmz : (0 : ℤ) ≤ (m : ℤ) := by positivity
    have hmpos : (0 : ℤ) < (m : ℤ) := by exact_mod_cast hm
    rw [Int.fdiv_eq_ediv _ hmz]
    constructor
    · exact Int.ediv_nonneg (by positivity) hmz
    · calc (255 * v) / (m : ℤ)
          ≤ (255 * (m : ℤ)) / (m : ℤ) :=
            Int.ediv_le_ediv hmpos (by linarith)
        _ = 255 := Int.mul_ediv_cancel 255 (by omega)

/-- Claim C5, witness: the amended-free claim instantiated at sample 1 with
max_value 2. -/
theorem claim_C5_witness :
    grayscale_gradient [(1 : ℤ)] 2
      = some ([(1 : ℤ)].flatMap fun v =>
          [(255 * v).fdiv ((2 : ℕ) : ℤ), (255 * v).fdiv ((2 : ℕ) : ℤ),
           (255 * v).fdiv ((2 : ℕ) : ℤ)]) ∧
    (0 ≤ (255 * (1 : ℤ)).fdiv ((2 : ℕ) : ℤ) ∧
     (255 * (1 : ℤ)).fdiv ((2 : ℕ) : ℤ) ≤ 255) :=
  ⟨claim_C5.1 [1] 2 (by decide),
   claim_C5.2.1 1 2 (by decide) (by decide) (by decide)⟩

theorem pyTruncQ_intCast (z : ℤ) : pyTruncQ ((z : ℤ) : ℚ) = z := by
  unfold pyTruncQ
  rw [Rat.num_intCast, Rat.den_intCast]
  simp

theorem rainbow_single (v : ℤ) (M : ℕ) (hM : M ≠ 0) :
    rainbow_gradient [v] M
      = some [pyTruncQ (max 0 (255 * ((v : ℚ) / ((M : ℚ) / 2) - 1))),
              255 - pyTruncQ (max 0 (255 * (1 - (v : ℚ) / ((M : ℚ) / 2))))
                  - pyTruncQ (max 0 (255 * ((v : ℚ) / ((M : ℚ) / 2) - 1))),
              pyTruncQ (max 0 (255 * (1 - (v : ℚ) / ((M : ℚ) / 2))))] := by
  unfold rainbow_gradient
  rw [if_neg (by rintro ⟨-, h0⟩; omega)]
  rfl

/-- Claim C6.  In rainbow mode, with channels emitted in the order r, g, b,
middle = max_value / 2 taken exactly and g = 255 - b - r, the boundary
values hold: sample 0 maps to (0, 0, 255), sample max_value maps to
(255, 0, 0) and a sample equal to max_value / 2 (an integer sample s with
2 s = max_value) maps to (0, 255, 0); in particular with max_value 2 the
samples 0, 1, 2 map to those three triples.  The Python float arithmetic is
exact on all of these inputs, so the rational model coincides with it. -/
theorem claim_C6 :
    (∀ M : ℕ, 0 < M →
       rainbow_gradient [(0 : ℤ)] M = some [0, 0, 255] ∧
       rainbow_gradient [((M : ℕ) : ℤ)] M = some [255, 0, 0] ∧
       (∀ s : ℕ, 2 * s = M →
          rainbow_gradient [((s : ℕ) : ℤ)] M = some [0, 255, 0])) ∧
    (rainbow_gradient [0] 2 = some [0, 0, 255] ∧
     rainbow_gradient [1] 2 = some [0, 255, 0] ∧
     rainbow_gradient [2] 2 = some [255, 0, 0]) := by
  constructor
  · intro M hM
    have hMz : M ≠ 0 := by omega
    have hMq : ((M : ℕ) : ℚ) ≠ 0 := Nat.cast_ne_zero.mpr hMz
    refine ⟨?_, ?_, ?_⟩
    · rw [rainbow_single 0 M hMz]
      have h0 : ((0 : ℤ) : ℚ) / ((M : ℚ) / 2) = 0 := by
        push_cast
        simp
      rw [h0]
      have hA : max (0 : ℚ) (255 * (0 - 1)) = ((0 : ℤ) : ℚ) := by
        rw [max_eq_left (by norm_num)]
        norm_num
      have hB : max (0 : ℚ) (255 * (1 - 0)) = ((255 : ℤ) : ℚ) := by
        rw [max_eq_right (by norm_num)]
        norm_num
      rw [hA, hB]
      simp only [pyTruncQ_intCast]
      norm_num
    · rw [rainbow_single ((M : ℕ) : ℤ) M hMz]
      have hr : (((M : ℕ) : ℤ) : ℚ) / (((M : ℕ) : ℚ) / 2) = 2 := by
        push_cast
        rw [div_div_eq_mul_div]
        rw [mul_comm, mul_div_assoc, div_self hMq, mul_one]
      rw [hr]
      have hA : max (0 : ℚ) (255 * (2 - 1)) = ((255 : ℤ) : ℚ) := by
        rw [max_eq_right (by norm_num)]
        norm_num
      have hB : max (0 : ℚ) (255 * (1 - 2)) = ((0 : ℤ) : ℚ) := by
        rw [max_eq_left (by norm_num)]
        norm_num
      rw [hA, hB]
      simp only [pyTruncQ_intCast]
      norm_num
    · intro s hsM
      subst hsM
      have hs0 : s ≠ 0 := by omega
      have hsq : ((s : ℕ) : ℚ) ≠ 0 := Nat.cast_ne_zero.mpr hs0
      rw [rainbow_single ((s : ℕ) : ℤ) (2 * s) hMz]
      have hr : (((s : ℕ) : ℤ) : ℚ) / ((((2 * s : ℕ)) : ℚ) / 2) = 1 := by
        push_cast
        have h2 : (2 * (s : ℚ)) / 2 = (s : ℚ) := by ring
        rw [h2, div_self hsq]
      rw [hr]
      have hA : max (0 : ℚ) (255 * (1 - 1)) = ((0 : ℤ) : ℚ) := by
        rw [max_eq_left (by norm_num)]
        norm_num
      rw [hA]
      simp only [pyTruncQ_intCast]
      norm_num
  · refine ⟨?_, ?_, ?_⟩
    · rw [rainbow_single 0 2 (by omega)]
      have hr : ((0 : ℤ) : ℚ) / (((2 : ℕ) : ℚ) / 2) = 0 := by
        push_cast
        norm_num
      rw [hr]
      have hA : max (0 : ℚ) (255 * (0 - 1)) = ((0 : ℤ) : ℚ) := by
        rw [max_eq_left (by norm_num)]
        norm_num
      have hB : max (0 : ℚ) (255 * (1 - 0)) = ((255 : ℤ) : ℚ) := by
        rw [max_eq_right (by norm_num)]
        norm_num
      rw [hA, hB]
      simp only [pyTruncQ_intCast]
      norm_num
    · rw [rainbow_single 1 2 (by omega)]
      have hr : ((1 : ℤ) : ℚ) / (((2 : ℕ) : ℚ) / 2) = 1 := by
        push_cast
        norm_num
      rw [hr]
      have hA : max (0 : ℚ) (255 * (1 - 1)) = ((0 : ℤ) : ℚ) := by
        rw [max_eq_left (by norm_num)]
        norm_num
      rw [hA]
      simp only [pyTruncQ_intCast]
      norm_num
    · rw [rainbow_single 2 2 (by omega)]
      have hr : ((2 : ℤ) : ℚ) / (((2 : ℕ) : ℚ) / 2) = 2 := by
        push_cast
        norm_num
      rw [hr]
      have hA : max (0 : ℚ) (255 * (2 - 1)) = ((255 : ℤ) : ℚ) := by
        rw [max_eq_right (by norm_num)]
        norm_num
      have hB : max (0 : ℚ) (255 * (1 - 2)) = ((0 : ℤ) : ℚ) := by
        rw [max_eq_left (by norm_num)]
        norm_num
      rw [hA, hB]
      simp only [pyTruncQ_intCast]
      norm_num

/-- Claim C6, witness: the boundary triples at max_value 2 with the midpoint
sample 1. -/
theorem claim_C6_witness :
    rainbow_gradient [(0 : ℤ)] 2 = some [0, 0, 255] ∧
    rainbow_gradient [((2 : ℕ) : ℤ)] 2 = some [255, 0, 0] ∧
    rainbow_gradient [((1 : ℕ) : ℤ)] 2 = some [0, 255, 0] :=
  ⟨(claim_C6.1 2 (by decide)).1, (claim_C6.1 2 (by decide)).2.1,
   (claim_C6.1 2 (by decide)).2.2 1 (by decide)⟩
